/-
  Verification of the JSON semantic diff engine (src/lib/jsonDiff.ts).

  The development shallowly embeds the library's core: the JSON value
  model, the recursive comparator `compareJSON`, the deep-equality
  predicate `deepEqual`, and the statistics pass `getDiffStats`.
  JavaScript numbers are modelled as integers (the repository's spec
  leaves IEEE-754 concerns to the caller and no claim depends on float
  behaviour); JavaScript objects are modelled as ordered association
  lists, with `Object.keys` order being the list order and the key-union
  `Set` modelled as first-occurrence deduplication, matching JS `Set`
  insertion semantics.
-/
import Mathlib

set_option linter.unusedVariables false

/-- Classification of a diff node: the `DiffType` union of jsonDiff.ts. -/
inductive DiffType where
  | added
  | removed
  | modified
  | unchanged
deriving DecidableEq, Repr

/-- The JSON value model: null, boolean, number, string, array, object.
Objects are ordered association lists from string keys to values. -/
inductive Value where
  | null
  | bool (b : Bool)
  | num (n : Int)
  | str (s : String)
  | arr (items : List Value)
  | obj (entries : List (String × Value))
deriving Repr

/-- The `DiffNode` record of jsonDiff.ts: path, type, optional oldValue,
optional newValue, optional children.  `none` models an absent field. -/
inductive DiffNode where
  | mk (path : String) (ty : DiffType) (oldValue : Option Value)
       (newValue : Option Value) (children : Option (List DiffNode))
deriving Repr

/-- Accessor for the `path` field of a DiffNode. -/
def DiffNode.path : DiffNode → String
  | .mk p _ _ _ _ => p

/-- Accessor for the `type` field of a DiffNode. -/
def DiffNode.ty : DiffNode → DiffType
  | .mk _ t _ _ _ => t

/-- Accessor for the `oldValue` field of a DiffNode. -/
def DiffNode.oldValue : DiffNode → Option Value
  | .mk _ _ o _ _ => o

/-- Accessor for the `newValue` field of a DiffNode. -/
def DiffNode.newValue : DiffNode → Option Value
  | .mk _ _ _ n _ => n

/-- Accessor for the `children` field of a DiffNode. -/
def DiffNode.children : DiffNode → Option (List DiffNode)
  | .mk _ _ _ _ c => c

mutual
/-- Function `deepEqual` from jsonDiff.ts.  Primitives compare by value (JS `===`
on same-typeof values; any cross-kind pair falls through to `false`,
matching the `typeof a !== typeof b` / `Array.isArray` guards and the
final `return false`).  Arrays compare by length plus pointwise
equality; objects compare by key-count plus, for each key of `a`,
membership in `b`'s keys and equality of the looked-up values. -/
def deepEqual : Value → Value → Bool
  | .null, .null => true
  | .bool a, .bool b => a == b
  | .num a, .num b => a == b
  | .str a, .str b => a == b
  | .arr a, .arr b => (a.length == b.length) && deepEqualList a b
  | .obj a, .obj b => (a.length == b.length) && deepEqualEntries a b
  | _, _ => false

/-- The array loop of `deepEqual`: pointwise equality.  The enclosing
length check has already ensured equal lengths when this is consulted. -/
def deepEqualList : List Value → List Value → Bool
  | [], _ => true
  | _, [] => true
  | x :: xs, y :: ys => deepEqual x y && deepEqualList xs ys

/-- The key loop of `deepEqual` for objects: for every entry `(k, v)` of
`a`, the key must occur in `b` (`keysB.includes(key)`) and the values
must be deeply equal (`deepEqual(a[key], b[key])`). -/
def deepEqualEntries : List (String × Value) → List (String × Value) → Bool
  | [], _ => true
  | (k, v) :: rest, bs =>
    match bs.lookup k with
    | some w => deepEqual v w && deepEqualEntries rest bs
    | none => false
end

/-- The JS test `(x === null || typeof x !== "object")` used by
`compareJSON`: true exactly for null, booleans, numbers and strings. -/
def isPrimitive : Value → Bool
  | .arr _ => false
  | .obj _ => false
  | _ => true

/-- Function `getValueType` from jsonDiff.ts: `null`, `Array.isArray`, `typeof`. -/
def getValueType : Value → String
  | .null => "null"
  | .arr _ => "array"
  | .bool _ => "boolean"
  | .num _ => "number"
  | .str _ => "string"
  | .obj _ => "object"

/-- The `path || "/"` default used when pushing a node. -/
def rootPath (path : String) : String := if path = "" then "/" else path

/-- Container classification from jsonDiff.ts:
`children.some((c) => c.type !== "unchanged") ? "modified" : "unchanged"`. -/
def containerTy (children : List DiffNode) : DiffType :=
  if children.any (fun c => c.ty != .unchanged) then .modified else .unchanged

/-- First-occurrence deduplication of a key list: the iteration order of
a JS `Set` built from the concatenated key arrays. -/
def firstDedup : List String → List String
  | [] => []
  | k :: ks => k :: firstDedup (ks.filter (fun x => x ≠ k))
termination_by l => l.length
decreasing_by
  have := List.length_filter_le (fun x => x ≠ k) ks
  simp only [List.length_cons]
  omega

/-- Model of `new Set([...Object.keys(oldObj), ...Object.keys(newObj)])`:
keys of the old object followed by the new object's keys, first
occurrence kept. -/
def allKeysOf (a b : List (String × Value)) : List String :=
  firstDedup (a.map Prod.fst ++ b.map Prod.fst)

/-- A value looked up in an association list is smaller than the list;
used for the termination of `compareJSON`. -/
theorem sizeOf_lookup {l : List (String × Value)} {k : String} {v : Value}
    (h : l.lookup k = some v) : sizeOf v < sizeOf l := by
  induction l with
  | nil => simp [List.lookup] at h
  | cons hd tl ih =>
    rw [List.lookup] at h
    by_cases hk : k == hd.1
    · simp [hk] at h
      obtain ⟨k1, v1⟩ := hd
      simp at h
      subst h
      simp
      omega
    · simp [hk] at h
      have := ih h
      obtain ⟨k1, v1⟩ := hd
      simp
      omega

mutual
/-- Function `compareJSON` from jsonDiff.ts.  Branches in source order: both
primitive (deep-equal decides modified vs unchanged); kind mismatch
(one modified leaf, no recursion); both arrays (positional walk); both
objects (key-union walk).  The final catch-all mirrors the function's
trailing `return diffs` (empty), which is unreachable for well-formed
values. -/
def compareJSON (oldObj newObj : Value) (path : String) : List DiffNode :=
  if isPrimitive oldObj && isPrimitive newObj then
    if !deepEqual oldObj newObj then
      [.mk (rootPath path) .modified (some oldObj) (some newObj) none]
    else
      [.mk (rootPath path) .unchanged (some oldObj) (some newObj) none]
  else if getValueType oldObj != getValueType newObj then
    [.mk (rootPath path) .modified (some oldObj) (some newObj) none]
  else
    match oldObj, newObj with
    | .arr a, .arr b =>
      let children := compareArrayItems path 0 a b
      [.mk (rootPath path) (containerTy children)
        (some (.arr a)) (some (.arr b)) (some children)]
    | .obj a, .obj b =>
      let children := compareObjectKeys path a b (allKeysOf a b)
      [.mk (rootPath path) (containerTy children)
        (some (.obj a)) (some (.obj b)) (some children)]
    | _, _ => []
  termination_by (sizeOf oldObj + sizeOf newObj, 0)

/-- The array loop of `compareJSON`, walking both arrays in lockstep
from index `i` (the loop `for i in [0, max(len old, len new))`): an
index beyond the old array yields an added leaf, an index beyond the
new array yields a removed leaf, and an index in both recurses and
splices the result. -/
def compareArrayItems (path : String) (i : Nat) : List Value → List Value → List DiffNode
  | [], [] => []
  | [], y :: ys =>
    .mk (path ++ "[" ++ toString i ++ "]") .added none (some y) none
      :: compareArrayItems path (i + 1) [] ys
  | x :: xs, [] =>
    .mk (path ++ "[" ++ toString i ++ "]") .removed (some x) none none
      :: compareArrayItems path (i + 1) xs []
  | x :: xs, y :: ys =>
    compareJSON x y (path ++ "[" ++ toString i ++ "]")
      ++ compareArrayItems path (i + 1) xs ys
  termination_by xs ys => (sizeOf xs + sizeOf ys, 0)

/-- The object loop of `compareJSON`, walking the key union: a key only
in the new object yields an added leaf, a key only in the old one a
removed leaf, a key in both recurses and splices the result.  The
`none, none` case cannot arise for keys drawn from the union. -/
def compareObjectKeys (path : String) (a b : List (String × Value)) : List String → List DiffNode
  | [] => []
  | k :: ks =>
    let keyPath := if path = "" then k else path ++ "." ++ k
    match ha : a.lookup k, hb : b.lookup k with
    | none, some v =>
      .mk keyPath .added none (some v) none :: compareObjectKeys path a b ks
    | some v, none =>
      .mk keyPath .removed (some v) none none :: compareObjectKeys path a b ks
    | some ov, some nv =>
      compareJSON ov nv keyPath ++ compareObjectKeys path a b ks
    | none, none => compareObjectKeys path a b ks
  termination_by ks => (sizeOf a + sizeOf b, ks.length + 1)
  decreasing_by
    · apply Prod.Lex.right; simp
    · apply Prod.Lex.right; simp
    · apply Prod.Lex.left
      have h1 := sizeOf_lookup ha
      have h2 := sizeOf_lookup hb
      omega
    · apply Prod.Lex.right; simp
    · apply Prod.Lex.right; simp
end

/-- The record returned by `getDiffStats`. -/
structure DiffStats where
  added : Nat
  removed : Nat
  modified : Nat
  unchanged : Nat
deriving DecidableEq, Repr

/-- Componentwise addition of statistics records. -/
def DiffStats.add (s t : DiffStats) : DiffStats :=
  ⟨s.added + t.added, s.removed + t.removed,
   s.modified + t.modified, s.unchanged + t.unchanged⟩

/-- The single increment the `switch` of `countDiffs` performs for one
visited node. -/
def typeBucket : DiffType → DiffStats
  | .added => ⟨1, 0, 0, 0⟩
  | .removed => ⟨0, 1, 0, 0⟩
  | .modified => ⟨0, 0, 1, 0⟩
  | .unchanged => ⟨0, 0, 0, 1⟩

mutual
/-- Contribution of one node to `getDiffStats`: its own bucket plus,
when the `children` field is present (`if (node.children)`), the
contribution of the children.  The source accumulates into mutable
counters in traversal order; since counter increments commute, the
compositional sum below computes the same four totals. -/
def nodeStats : DiffNode → DiffStats
  | .mk _ t _ _ cs =>
    DiffStats.add (typeBucket t)
      (match cs with
       | none => ⟨0, 0, 0, 0⟩
       | some l => forestStats l)

/-- The `for (const node of nodes)` loop of `countDiffs`. -/
def forestStats : List DiffNode → DiffStats
  | [] => ⟨0, 0, 0, 0⟩
  | nd :: rest => DiffStats.add (nodeStats nd) (forestStats rest)
end

/-- Function `getDiffStats` from jsonDiff.ts. -/
def getDiffStats (diffs : List DiffNode) : DiffStats := forestStats diffs

mutual
/-- Number of nodes of one diff tree, the node itself included. -/
def nodeCount : DiffNode → Nat
  | .mk _ _ _ _ cs =>
    1 + (match cs with
         | none => 0
         | some l => forestCount l)

/-- Number of nodes of a diff forest. -/
def forestCount : List DiffNode → Nat
  | [] => 0
  | nd :: rest => nodeCount nd + forestCount rest
end

mutual
/-- Number of nodes of one diff tree classified as `t`. -/
def nodeTypeCount (t : DiffType) : DiffNode → Nat
  | .mk _ t2 _ _ cs =>
    (if t2 = t then 1 else 0) +
      (match cs with
       | none => 0
       | some l => forestTypeCount t l)

/-- Number of nodes of a diff forest classified as `t`. -/
def forestTypeCount (t : DiffType) : List DiffNode → Nat
  | [] => 0
  | nd :: rest => nodeTypeCount t nd + forestTypeCount t rest
end

mutual
/-- Predicate transformer: `p` holds at this node and, recursively, at
every node below it. -/
def nodeAll (p : DiffNode → Bool) : DiffNode → Bool
  | .mk pa t o n cs =>
    p (.mk pa t o n cs) &&
      (match cs with
       | none => true
       | some l => forestAll p l)

/-- Predicate transformer: `p` holds at every node of the forest. -/
def forestAll (p : DiffNode → Bool) : List DiffNode → Bool
  | [] => true
  | nd :: rest => nodeAll p nd && forestAll p rest
end

/-- The per-node record a diff node exposes apart from its children:
path, classification, old value, new value. -/
structure NodeEntry where
  path : String
  ty : DiffType
  oldValue : Option Value
  newValue : Option Value

mutual
/-- All node records of one diff tree, the node itself first. -/
def nodeEntries : DiffNode → List NodeEntry
  | .mk pa t o n cs =>
    ⟨pa, t, o, n⟩ ::
      (match cs with
       | none => []
       | some l => forestEntries l)

/-- All node records of a diff forest. -/
def forestEntries : List DiffNode → List NodeEntry
  | [] => []
  | nd :: rest => nodeEntries nd ++ forestEntries rest
end

/-- Exchanging the two compared documents turns `added` into `removed`
and vice versa; `modified` and `unchanged` are kept. -/
def swapType : DiffType → DiffType
  | .added => .removed
  | .removed => .added
  | .modified => .modified
  | .unchanged => .unchanged

/-- The record a node is expected to show after exchanging the two
compared documents: same path, classification swapped via `swapType`,
old and new values exchanged. -/
def swapEntry : NodeEntry → NodeEntry
  | ⟨pa, t, o, n⟩ => ⟨pa, swapType t, n, o⟩

mutual
/-- Simultaneous induction on a diff node, recursing through the
optional children list. -/
def nodeIndStep (P : DiffNode → Prop) (Q : List DiffNode → Prop)
    (hleaf : ∀ pa t o n, P (.mk pa t o n none))
    (hbranch : ∀ pa t o n l, Q l → P (.mk pa t o n (some l)))
    (hnil : Q [])
    (hcons : ∀ nd rest, P nd → Q rest → Q (nd :: rest)) :
    ∀ nd, P nd
  | .mk pa t o n none => hleaf pa t o n
  | .mk pa t o n (some l) =>
    hbranch pa t o n l (forestIndStep P Q hleaf hbranch hnil hcons l)
  termination_by nd => sizeOf nd

/-- Simultaneous induction on a diff forest. -/
def forestIndStep (P : DiffNode → Prop) (Q : List DiffNode → Prop)
    (hleaf : ∀ pa t o n, P (.mk pa t o n none))
    (hbranch : ∀ pa t o n l, Q l → P (.mk pa t o n (some l)))
    (hnil : Q [])
    (hcons : ∀ nd rest, P nd → Q rest → Q (nd :: rest)) :
    ∀ l, Q l
  | [] => hnil
  | nd :: rest =>
    hcons nd rest (nodeIndStep P Q hleaf hbranch hnil hcons nd)
      (forestIndStep P Q hleaf hbranch hnil hcons rest)
  termination_by l => sizeOf l
end

mutual
/-- Simultaneous induction on a JSON value, recursing through array
items and object entry values. -/
def valueIndStep (P : Value → Prop) (Q : List Value → Prop)
    (R : List (String × Value) → Prop)
    (hnull : P .null) (hbool : ∀ b, P (.bool b)) (hnum : ∀ i, P (.num i))
    (hstr : ∀ s, P (.str s))
    (harr : ∀ items, Q items → P (.arr items))
    (hobj : ∀ entries, R entries → P (.obj entries))
    (hqnil : Q []) (hqcons : ∀ x xs, P x → Q xs → Q (x :: xs))
    (hrnil : R []) (hrcons : ∀ k v rest, P v → R rest → R ((k, v) :: rest)) :
    ∀ v, P v
  | .null => hnull
  | .bool b => hbool b
  | .num i => hnum i
  | .str s => hstr s
  | .arr items => harr items
      (valueListIndStep P Q R hnull hbool hnum hstr harr hobj hqnil hqcons hrnil hrcons items)
  | .obj entries => hobj entries
      (valueEntriesIndStep P Q R hnull hbool hnum hstr harr hobj hqnil hqcons hrnil hrcons entries)
  termination_by v => sizeOf v

/-- Simultaneous induction on a list of JSON values. -/
def valueListIndStep (P : Value → Prop) (Q : List Value → Prop)
    (R : List (String × Value) → Prop)
    (hnull : P .null) (hbool : ∀ b, P (.bool b)) (hnum : ∀ i, P (.num i))
    (hstr : ∀ s, P (.str s))
    (harr : ∀ items, Q items → P (.arr items))
    (hobj : ∀ entries, R entries → P (.obj entries))
    (hqnil : Q []) (hqcons : ∀ x xs, P x → Q xs → Q (x :: xs))
    (hrnil : R []) (hrcons : ∀ k v rest, P v → R rest → R ((k, v) :: rest)) :
    ∀ l, Q l
  | [] => hqnil
  | x :: xs => hqcons x xs
      (valueIndStep P Q R hnull hbool hnum hstr harr hobj hqnil hqcons hrnil hrcons x)
      (valueListIndStep P Q R hnull hbool hnum hstr harr hobj hqnil hqcons hrnil hrcons xs)
  termination_by l => sizeOf l

/-- Simultaneous induction on a list of JSON object entries. -/
def valueEntriesIndStep (P : Value → Prop) (Q : List Value → Prop)
    (R : List (String × Value) → Prop)
    (hnull : P .null) (hbool : ∀ b, P (.bool b)) (hnum : ∀ i, P (.num i))
    (hstr : ∀ s, P (.str s))
    (harr : ∀ items, Q items → P (.arr items))
    (hobj : ∀ entries, R entries → P (.obj entries))
    (hqnil : Q []) (hqcons : ∀ x xs, P x → Q xs → Q (x :: xs))
    (hrnil : R []) (hrcons : ∀ k v rest, P v → R rest → R ((k, v) :: rest)) :
    ∀ l, R l
  | [] => hrnil
  | (k, v) :: rest => hrcons k v rest
      (valueIndStep P Q R hnull hbool hnum hstr harr hobj hqnil hqcons hrnil hrcons v)
      (valueEntriesIndStep P Q R hnull hbool hnum hstr harr hobj hqnil hqcons hrnil hrcons rest)
  termination_by l => sizeOf l
end

/-- Shape invariant every node produced by `compareJSON` satisfies:
added and removed nodes are one-sided leaves; modified and unchanged
nodes carry both values, and their classification agrees with deep
equality (leaves) or with their children's classifications (containers). -/
def goodNode : DiffNode → Bool
  | .mk _ .added o n cs => o.isNone && n.isSome && cs.isNone
  | .mk _ .removed o n cs => o.isSome && n.isNone && cs.isNone
  | .mk _ .modified o n cs =>
    match o, n with
    | some ov, some nv =>
      (match cs with
       | none => !deepEqual ov nv
       | some l => l.any (fun c => c.ty != .unchanged))
    | _, _ => false
  | .mk _ .unchanged o n cs =>
    match o, n with
    | some ov, some nv =>
      (match cs with
       | none => deepEqual ov nv
       | some l => l.all (fun c => c.ty == .unchanged))
    | _, _ => false

/-- The classification invariant of the spec's DiffNode section: an
added or removed node is not recursed into; a leaf is unchanged iff its
two values are deeply equal; a container is unchanged iff all of its
children are unchanged (otherwise those nodes are modified, the only
remaining classification). -/
def classificationInv : DiffNode → Bool
  | .mk _ .added _ _ cs => cs.isNone
  | .mk _ .removed _ _ cs => cs.isNone
  | .mk _ t o n cs =>
    match cs with
    | none =>
      (match o, n with
       | some ov, some nv => (t == .unchanged) == deepEqual ov nv
       | _, _ => false)
    | some l => (t == .unchanged) == l.all (fun c => c.ty == .unchanged)

/-- Field presence, as the spec states it: the old value is present
unless the node is added, the new value unless the node is removed. -/
def presenceInv (nd : DiffNode) : Bool :=
  ((nd.ty == .added) || nd.oldValue.isSome) &&
    ((nd.ty == .removed) || nd.newValue.isSome)

/-- Added and removed nodes are one-sided leaves: an added node has no
old value and no children, a removed node no new value and no children. -/
def oneSidedAddRem (nd : DiffNode) : Bool :=
  ((nd.ty != .added) || (nd.oldValue.isNone && nd.children.isNone)) &&
    ((nd.ty != .removed) || (nd.newValue.isNone && nd.children.isNone))

/-- Modelled from the claim: strictly positional array comparison over
indices in [0, max(len old, len new)): an index only in the old array
gives a removed leaf, one only in the new array an added leaf, and an
index in both recurses. -/
def arrChildrenSpec (a b : List Value) (p : String) : List DiffNode :=
  (List.range (max a.length b.length)).flatMap fun j =>
    match a[j]?, b[j]? with
    | some x, some y => compareJSON x y (p ++ "[" ++ toString j ++ "]")
    | some x, none => [.mk (p ++ "[" ++ toString j ++ "]") .removed (some x) none none]
    | none, some y => [.mk (p ++ "[" ++ toString j ++ "]") .added none (some y) none]
    | none, none => []

/-- Correspondence of a single node pair under document exchange: the
classification is swapped and the flattened records correspond under
`swapEntry`, up to child reordering. -/
def nodeSwapCorr (nd nd2 : DiffNode) : Prop :=
  nd2.ty = swapType nd.ty ∧
    (nodeEntries nd2).Perm ((nodeEntries nd).map swapEntry)

/-- Correspondence of two forests under document exchange: top-level
classifications are swapped pointwise, and the flattened records
correspond under `swapEntry`, up to reordering. -/
def SwapCorr (l l2 : List DiffNode) : Prop :=
  l2.map DiffNode.ty = l.map (fun nd => swapType nd.ty) ∧
    (forestEntries l2).Perm ((forestEntries l).map swapEntry)

@[simp] theorem DiffNode.path_mk (pa : String) (t : DiffType) (o n : Option Value)
    (c : Option (List DiffNode)) : (DiffNode.mk pa t o n c).path = pa := rfl

@[simp] theorem DiffNode.ty_mk (pa : String) (t : DiffType) (o n : Option Value)
    (c : Option (List DiffNode)) : (DiffNode.mk pa t o n c).ty = t := rfl

@[simp] theorem DiffNode.oldValue_mk (pa : String) (t : DiffType) (o n : Option Value)
    (c : Option (List DiffNode)) : (DiffNode.mk pa t o n c).oldValue = o := rfl

@[simp] theorem DiffNode.newValue_mk (pa : String) (t : DiffType) (o n : Option Value)
    (c : Option (List DiffNode)) : (DiffNode.mk pa t o n c).newValue = n := rfl

@[simp] theorem DiffNode.children_mk (pa : String) (t : DiffType) (o n : Option Value)
    (c : Option (List DiffNode)) : (DiffNode.mk pa t o n c).children = c := rfl

@[simp] theorem forestAll_nil (p : DiffNode → Bool) : forestAll p [] = true := by
  simp [forestAll]

@[simp] theorem forestAll_cons (p : DiffNode → Bool) (nd : DiffNode) (rest : List DiffNode) :
    forestAll p (nd :: rest) = (nodeAll p nd && forestAll p rest) := by
  simp [forestAll]

@[simp] theorem forestAll_append (p : DiffNode → Bool) (l1 l2 : List DiffNode) :
    forestAll p (l1 ++ l2) = (forestAll p l1 && forestAll p l2) := by
  induction l1 with
  | nil => simp
  | cons nd rest ih => simp [ih, Bool.and_assoc]

@[simp] theorem nodeAll_mk_none (p : DiffNode → Bool) (pa : String) (t : DiffType)
    (o n : Option Value) : nodeAll p (.mk pa t o n none) = p (.mk pa t o n none) := by
  simp [nodeAll]

@[simp] theorem nodeAll_mk_some (p : DiffNode → Bool) (pa : String) (t : DiffType)
    (o n : Option Value) (l : List DiffNode) :
    nodeAll p (.mk pa t o n (some l)) = (p (.mk pa t o n (some l)) && forestAll p l) := by
  simp [nodeAll]

@[simp] theorem forestEntries_nil : forestEntries [] = [] := by
  simp [forestEntries]

@[simp] theorem forestEntries_cons (nd : DiffNode) (rest : List DiffNode) :
    forestEntries (nd :: rest) = nodeEntries nd ++ forestEntries rest := by
  simp [forestEntries]

@[simp] theorem forestEntries_append (l1 l2 : List DiffNode) :
    forestEntries (l1 ++ l2) = forestEntries l1 ++ forestEntries l2 := by
  induction l1 with
  | nil => simp
  | cons nd rest ih => simp [ih]

@[simp] theorem nodeEntries_mk_none (pa : String) (t : DiffType) (o n : Option Value) :
    nodeEntries (.mk pa t o n none) = [⟨pa, t, o, n⟩] := by
  simp [nodeEntries]

@[simp] theorem nodeEntries_mk_some (pa : String) (t : DiffType) (o n : Option Value)
    (l : List DiffNode) :
    nodeEntries (.mk pa t o n (some l)) = ⟨pa, t, o, n⟩ :: forestEntries l := by
  simp [nodeEntries]

/-- Monotonicity of the deep predicate transformer. -/
theorem forestAll_mono (p q : DiffNode → Bool) (h : ∀ nd, p nd = true → q nd = true) :
    ∀ l, forestAll p l = true → forestAll q l = true := by
  have key := forestIndStep
    (fun nd => nodeAll p nd = true → nodeAll q nd = true)
    (fun l => forestAll p l = true → forestAll q l = true)
    (by intro pa t o n; simp; exact h _)
    (by intro pa t o n l ih; simp; intro h1 h2; exact ⟨h _ h1, ih h2⟩)
    (by simp)
    (by intro nd rest ih1 ih2; simp; intro h1 h2; exact ⟨ih1 h1, ih2 h2⟩)
  exact key

/-- The statistics pass computes, bucket by bucket, the number of nodes
of each classification in the whole forest. -/
theorem forestStats_eq_typeCounts : ∀ l, forestStats l =
    ⟨forestTypeCount .added l, forestTypeCount .removed l,
     forestTypeCount .modified l, forestTypeCount .unchanged l⟩ := by
  have key := forestIndStep
    (fun nd => nodeStats nd =
      ⟨nodeTypeCount .added nd, nodeTypeCount .removed nd,
       nodeTypeCount .modified nd, nodeTypeCount .unchanged nd⟩)
    (fun l => forestStats l =
      ⟨forestTypeCount .added l, forestTypeCount .removed l,
       forestTypeCount .modified l, forestTypeCount .unchanged l⟩)
    (by intro pa t o n
        cases t <;> simp [nodeStats, nodeTypeCount, typeBucket, DiffStats.add])
    (by intro pa t o n l ih
        cases t <;>
          simp [nodeStats, nodeTypeCount, typeBucket, DiffStats.add, ih])
    (by simp [forestStats, forestTypeCount])
    (by intro nd rest ih1 ih2
        simp [forestStats, forestTypeCount, DiffStats.add, ih1, ih2])
  exact key

/-- The four per-classification deep counts of a forest sum to its total
node count. -/
theorem forestTypeCount_sum : ∀ l,
    forestTypeCount .added l + forestTypeCount .removed l +
      forestTypeCount .modified l + forestTypeCount .unchanged l = forestCount l := by
  have key := forestIndStep
    (fun nd => nodeTypeCount .added nd + nodeTypeCount .removed nd +
      nodeTypeCount .modified nd + nodeTypeCount .unchanged nd = nodeCount nd)
    (fun l => forestTypeCount .added l + forestTypeCount .removed l +
      forestTypeCount .modified l + forestTypeCount .unchanged l = forestCount l)
    (by intro pa t o n
        cases t <;> simp [nodeTypeCount, nodeCount])
    (by intro pa t o n l ih
        cases t <;> simp [nodeTypeCount, nodeCount, ← ih] <;> omega)
    (by simp [forestTypeCount, forestCount])
    (by intro nd rest ih1 ih2
        simp [forestTypeCount, forestCount, ← ih1, ← ih2]
        omega)
  exact key

/-- Values of different display kinds are never deeply equal. -/
theorem deepEqual_false_of_kind_ne (o n : Value)
    (h : getValueType o ≠ getValueType n) : deepEqual o n = false := by
  cases o <;> cases n <;> simp_all [getValueType, deepEqual]

/-- Case split on a container's classification, packaged with the fact
the branch condition gives about the children. -/
theorem containerTy_cases (cs : List DiffNode) :
    (containerTy cs = .modified ∧ cs.any (fun c => c.ty != .unchanged) = true) ∨
    (containerTy cs = .unchanged ∧ cs.all (fun c => c.ty == .unchanged) = true) := by
  unfold containerTy
  by_cases h : cs.any (fun c => c.ty != .unchanged) = true
  · left
    simp [h]
  · right
    rw [Bool.not_eq_true] at h
    simp [h]
    rw [List.any_eq_false] at h
    intro c hc
    have h2 := h c hc
    rw [Bool.not_eq_true, bne_eq_false_iff_eq] at h2
    simp [h2]

/-- After the primitive and kind-mismatch branches have both declined,
the two values are either both arrays or both objects. -/
theorem sameKind_of (o n : Value) (h1 : ¬(isPrimitive o && isPrimitive n) = true)
    (h2 : ¬(getValueType o != getValueType n) = true) :
    (∃ a b, o = .arr a ∧ n = .arr b) ∨ (∃ a b, o = .obj a ∧ n = .obj b) := by
  cases o <;> cases n <;> simp_all [isPrimitive, getValueType]

/-- Unfolding of `compareJSON` in the both-primitive branch. -/
theorem cmp_prim (o n : Value) (p : String) (h1 : (isPrimitive o && isPrimitive n) = true) :
    compareJSON o n p =
      if !deepEqual o n then [.mk (rootPath p) .modified (some o) (some n) none]
      else [.mk (rootPath p) .unchanged (some o) (some n) none] := by
  rw [compareJSON, if_pos h1]
  all_goals intro x y hx hy
  all_goals subst hx
  all_goals subst hy
  all_goals simp [isPrimitive] at h1

/-- Unfolding of `compareJSON` in the kind-mismatch branch. -/
theorem cmp_mismatch (o n : Value) (p : String)
    (h1 : ¬(isPrimitive o && isPrimitive n) = true)
    (h2 : (getValueType o != getValueType n) = true) :
    compareJSON o n p = [.mk (rootPath p) .modified (some o) (some n) none] := by
  rw [compareJSON, if_neg h1, if_pos h2]
  all_goals intro x y hx hy
  all_goals subst hx
  all_goals subst hy
  all_goals simp [getValueType] at h2

/-- Unfolding of `compareJSON` for two arrays. -/
theorem cmp_arr (a b : List Value) (p : String) :
    compareJSON (.arr a) (.arr b) p =
      [.mk (rootPath p) (containerTy (compareArrayItems p 0 a b))
        (some (.arr a)) (some (.arr b)) (some (compareArrayItems p 0 a b))] := by
  rw [compareJSON]
  simp [isPrimitive, getValueType]

/-- Unfolding of `compareJSON` for two objects. -/
theorem cmp_obj (a b : List (String × Value)) (p : String) :
    compareJSON (.obj a) (.obj b) p =
      [.mk (rootPath p) (containerTy (compareObjectKeys p a b (allKeysOf a b)))
        (some (.obj a)) (some (.obj b)) (some (compareObjectKeys p a b (allKeysOf a b)))] := by
  rw [compareJSON]
  simp [isPrimitive, getValueType]

/-- Step equation for the object-key loop, with a plain (non-dependent)
match on the two lookups. -/
theorem cok_cons (p : String) (a b : List (String × Value)) (k : String) (ks : List String) :
    compareObjectKeys p a b (k :: ks) =
      (match a.lookup k, b.lookup k with
       | none, some v =>
         [DiffNode.mk (if p = "" then k else p ++ "." ++ k) .added none (some v) none]
       | some v, none =>
         [DiffNode.mk (if p = "" then k else p ++ "." ++ k) .removed (some v) none none]
       | some ov, some nv => compareJSON ov nv (if p = "" then k else p ++ "." ++ k)
       | none, none => []) ++ compareObjectKeys p a b ks := by
  rw [compareObjectKeys]
  split <;> rename_i ha hb <;> rw [ha, hb] <;> rfl

@[simp] theorem cok_nil (p : String) (a b : List (String × Value)) :
    compareObjectKeys p a b [] = [] := by
  rw [compareObjectKeys]

@[simp] theorem cai_nil (p : String) (i : Nat) : compareArrayItems p i [] [] = [] := by
  rw [compareArrayItems]

theorem cai_add (p : String) (i : Nat) (y : Value) (ys : List Value) :
    compareArrayItems p i [] (y :: ys) =
      .mk (p ++ "[" ++ toString i ++ "]") .added none (some y) none
        :: compareArrayItems p (i + 1) [] ys := by
  rw [compareArrayItems]

theorem cai_rem (p : String) (i : Nat) (x : Value) (xs : List Value) :
    compareArrayItems p i (x :: xs) [] =
      .mk (p ++ "[" ++ toString i ++ "]") .removed (some x) none none
        :: compareArrayItems p (i + 1) xs [] := by
  rw [compareArrayItems]

theorem cai_both (p : String) (i : Nat) (x : Value) (xs : List Value) (y : Value) (ys : List Value) :
    compareArrayItems p i (x :: xs) (y :: ys) =
      compareJSON x y (p ++ "[" ++ toString i ++ "]")
        ++ compareArrayItems p (i + 1) xs ys := by
  rw [compareArrayItems]

/-- Every node anywhere in a tree produced by `compareJSON` satisfies
the `goodNode` shape invariant. -/
theorem compareJSON_good : ∀ o n p, forestAll goodNode (compareJSON o n p) = true := by
  apply compareJSON.induct
    (fun o n p => forestAll goodNode (compareJSON o n p) = true)
    (fun p a b ks => forestAll goodNode (compareObjectKeys p a b ks) = true)
    (fun p i xs ys => forestAll goodNode (compareArrayItems p i xs ys) = true)
  · intro o n p h1 h2
    rw [cmp_prim o n p h1, if_pos h2]
    have hde : deepEqual o n = false := by
      revert h2; cases deepEqual o n <;> simp
    simp [goodNode, hde]
  · intro o n p h1 h2
    rw [cmp_prim o n p h1, if_neg h2]
    have hde : deepEqual o n = true := by
      revert h2; cases deepEqual o n <;> simp
    simp [goodNode, hde]
  · intro o n p h1 h2
    rw [cmp_mismatch o n p h1 h2]
    have hne : getValueType o ≠ getValueType n := by
      intro hcontra
      rw [hcontra] at h2
      simp at h2
    simp [goodNode, deepEqual_false_of_kind_ne o n hne]
  · intro p a b h1 h2 ih
    rw [cmp_arr]
    simp only [forestAll_cons, forestAll_nil, nodeAll_mk_some, Bool.and_true]
    rcases containerTy_cases (compareArrayItems p 0 a b) with ⟨hc, hx⟩ | ⟨hc, hx⟩ <;>
      rw [hc] <;> simp [goodNode, hx, ih]
  · intro p a b h1 h2 ih
    rw [cmp_obj]
    simp only [forestAll_cons, forestAll_nil, nodeAll_mk_some, Bool.and_true]
    rcases containerTy_cases (compareObjectKeys p a b (allKeysOf a b)) with ⟨hc, hx⟩ | ⟨hc, hx⟩ <;>
      rw [hc] <;> simp [goodNode, hx, ih]
  · intro o n p h1 h2 harr hobj
    exfalso
    rcases sameKind_of o n h1 h2 with ⟨a, b, rfl, rfl⟩ | ⟨a, b, rfl, rfl⟩
    · exact harr a b rfl rfl
    · exact hobj a b rfl rfl
  · intro p a b
    simp
  · intro p a b k ks v ha hb ih
    rw [cok_cons, ha, hb]
    simp [goodNode, ih]
  · intro p a b k ks v ha hb ih
    rw [cok_cons, ha, hb]
    simp [goodNode, ih]
  · intro p a b k ks keyPath ov nv ha hb ih1 ih2
    rw [cok_cons, ha, hb]
    rw [forestAll_append, Bool.and_eq_true]
    exact ⟨ih1, ih2⟩
  · intro p a b k ks ha hb ih
    rw [cok_cons, ha, hb]
    simpa using ih
  · intro p i
    simp
  · intro p i y ys ih
    rw [cai_add]
    simp [goodNode, ih]
  · intro p i x xs ih
    rw [cai_rem]
    simp [goodNode, ih]
  · intro p i x xs y ys ih1 ih2
    rw [cai_both]
    simp [ih1, ih2]

/-- Root shape of every comparison: one node at `rootPath p`, carrying
both input values, classified modified or unchanged. -/
theorem compareJSON_root : ∀ o n p, ∃ t cs,
    compareJSON o n p = [.mk (rootPath p) t (some o) (some n) cs] ∧
    (t = .modified ∨ t = .unchanged) := by
  intro o n p
  by_cases h1 : (isPrimitive o && isPrimitive n) = true
  · rw [cmp_prim o n p h1]
    by_cases h2 : (!deepEqual o n) = true
    · exact ⟨.modified, none, by rw [if_pos h2], Or.inl rfl⟩
    · exact ⟨.unchanged, none, by rw [if_neg h2], Or.inr rfl⟩
  · by_cases h2 : (getValueType o != getValueType n) = true
    · exact ⟨.modified, none, cmp_mismatch o n p h1 h2, Or.inl rfl⟩
    · rcases sameKind_of o n h1 h2 with ⟨a, b, rfl, rfl⟩ | ⟨a, b, rfl, rfl⟩
      · refine ⟨containerTy (compareArrayItems p 0 a b), some (compareArrayItems p 0 a b),
          cmp_arr a b p, ?_⟩
        rcases containerTy_cases (compareArrayItems p 0 a b) with ⟨hc, _⟩ | ⟨hc, _⟩
        · exact Or.inl hc
        · exact Or.inr hc
      · refine ⟨containerTy (compareObjectKeys p a b (allKeysOf a b)),
          some (compareObjectKeys p a b (allKeysOf a b)), cmp_obj a b p, ?_⟩
        rcases containerTy_cases (compareObjectKeys p a b (allKeysOf a b)) with
          ⟨hc, _⟩ | ⟨hc, _⟩
        · exact Or.inl hc
        · exact Or.inr hc

/-- The shape invariant implies the spec's classification invariant. -/
theorem goodNode_imp_classificationInv :
    ∀ nd, goodNode nd = true → classificationInv nd = true := by
  intro nd
  obtain ⟨pa, t, o, n, cs⟩ := nd
  cases t
  · cases cs <;> simp [goodNode, classificationInv]
  · cases cs <;> simp [goodNode, classificationInv]
  · cases cs
    · cases o <;> cases n <;> simp [goodNode, classificationInv] <;>
        intro h <;> simp [h]
    · cases o <;> cases n <;> simp [goodNode, classificationInv]
      rename_i l ov nv
      intro x hx hne
      have hall : l.all (fun c => c.ty == DiffType.unchanged) = false :=
        List.all_eq_false.mpr ⟨x, hx, by simp [hne]⟩
      rw [hall]
      decide
  · cases cs
    · cases o <;> cases n <;> simp [goodNode, classificationInv] <;>
        intro h <;> simp [h]
    · cases o <;> cases n <;> simp [goodNode, classificationInv]

/-- The shape invariant implies the spec's field-presence rule. -/
theorem goodNode_imp_presenceInv :
    ∀ nd, goodNode nd = true → presenceInv nd = true := by
  intro nd
  obtain ⟨pa, t, o, n, cs⟩ := nd
  cases t <;> cases cs <;> cases o <;> cases n <;>
    simp_all [goodNode, presenceInv]

/-- The shape invariant implies one-sidedness of added/removed nodes. -/
theorem goodNode_imp_oneSidedAddRem :
    ∀ nd, goodNode nd = true → oneSidedAddRem nd = true := by
  intro nd
  obtain ⟨pa, t, o, n, cs⟩ := nd
  cases t <;> cases cs <;> cases o <;> cases n <;>
    simp_all [goodNode, oneSidedAddRem]

/-- Claim C2: `getDiffStats` traverses every node of every tree of the
forest, each node counting exactly once in the bucket of its own
classification, so the report equals the four per-classification node
counts and their sum is the total number of nodes. -/
theorem getDiffStats_counts_each_node_once (l : List DiffNode) :
    getDiffStats l =
      ⟨forestTypeCount .added l, forestTypeCount .removed l,
       forestTypeCount .modified l, forestTypeCount .unchanged l⟩ ∧
    (getDiffStats l).added + (getDiffStats l).removed +
      (getDiffStats l).modified + (getDiffStats l).unchanged = forestCount l := by
  have h1 := forestStats_eq_typeCounts l
  have h2 := forestTypeCount_sum l
  refine ⟨h1, ?_⟩
  show (forestStats l).added + (forestStats l).removed +
    (forestStats l).modified + (forestStats l).unchanged = forestCount l
  rw [h1]
  exact h2

/-- Claim C3: in every tree `compareJSON` returns, a node is unchanged
iff its values are deeply equal (leaves) or iff all children are
unchanged (containers), is otherwise modified, and added/removed nodes
are exactly the not-recursed-into one-sided nodes. -/
theorem compareJSON_classification_invariant (o n : Value) (p : String) :
    forestAll classificationInv (compareJSON o n p) = true :=
  forestAll_mono goodNode classificationInv goodNode_imp_classificationInv
    (compareJSON o n p) (compareJSON_good o n p)

/-- Claim C8: in every node `compareJSON` produces, the old value is
present unless the node is added and the new value is present unless
the node is removed (so modified and unchanged nodes carry both). -/
theorem compareJSON_field_presence (o n : Value) (p : String) :
    forestAll presenceInv (compareJSON o n p) = true :=
  forestAll_mono goodNode presenceInv goodNode_imp_presenceInv
    (compareJSON o n p) (compareJSON_good o n p)

/-- Claim C9: `compareJSON` always returns exactly one top-level node;
as a total function of its inputs it has no error path and no side
effects. -/
theorem compareJSON_singleton (o n : Value) (p : String) :
    (compareJSON o n p).length = 1 := by
  obtain ⟨t, cs, heq, _⟩ := compareJSON_root o n p
  rw [heq]
  rfl

/-- Claim C10: the root node of every comparison is modified or
unchanged, never added or removed; added and removed nodes anywhere in
the tree are the one-sided child nodes (no old value / no new value,
and never recursed into). -/
theorem compareJSON_root_not_added_removed (o n : Value) (p : String) :
    ((compareJSON o n p).all fun nd => (nd.ty == .modified) || (nd.ty == .unchanged)) = true ∧
    forestAll oneSidedAddRem (compareJSON o n p) = true := by
  constructor
  · obtain ⟨t, cs, heq, ht⟩ := compareJSON_root o n p
    rw [heq]
    rcases ht with rfl | rfl <;> simp
  · exact forestAll_mono goodNode oneSidedAddRem goodNode_imp_oneSidedAddRem
      (compareJSON o n p) (compareJSON_good o n p)

/-- Concrete comparison of the spec's 2-deep modification example:
the resulting tree has three modified nodes, at `/`, `a` and `a.b`. -/
theorem compareJSON_two_deep_tree : compareJSON (.obj [("a", .obj [("b", .num 1)])])
    (.obj [("a", .obj [("b", .num 2)])]) "" =
    [.mk "/" .modified (some (.obj [("a", .obj [("b", .num 1)])]))
      (some (.obj [("a", .obj [("b", .num 2)])]))
      (some [.mk "a" .modified (some (.obj [("b", .num 1)])) (some (.obj [("b", .num 2)]))
        (some [.mk "a.b" .modified (some (.num 1)) (some (.num 2)) none])])] := by
  simp [compareJSON, compareObjectKeys, isPrimitive, deepEqual, rootPath,
    getValueType, allKeysOf, containerTy, List.lookup, DiffNode.ty, firstDedup]

/-- Claim C1, counterexample: for old `{"a":{"b":1}}` and new
`{"a":{"b":2}}`, `getDiffStats` over `compareJSON` does NOT report
`modified = 2`: the root object is also counted, giving 3. -/
theorem stats_two_deep_modified_ne_two :
    ¬((getDiffStats (compareJSON (.obj [("a", .obj [("b", .num 1)])])
      (.obj [("a", .obj [("b", .num 2)])]) "")).modified = 2) := by
  rw [compareJSON_two_deep_tree]
  decide

/-- Claim C1 as amended: for old `{"a":{"b":1}}` and new
`{"a":{"b":2}}`, `getDiffStats` over `compareJSON` reports
`modified = 3` — the root object, the object at `a` and the leaf at
`a.b` all count — and no added, removed or unchanged nodes. -/
theorem stats_two_deep_modified_eq_three :
    getDiffStats (compareJSON (.obj [("a", .obj [("b", .num 1)])])
      (.obj [("a", .obj [("b", .num 2)])]) "") = ⟨0, 0, 3, 0⟩ := by
  rw [compareJSON_two_deep_tree]
  decide

/-- Claim C6: whenever the two compared values have different kinds,
`compareJSON` emits exactly one modified leaf carrying the full old and
new values, with no children; in particular `{"a": 1}` vs `{"a": [1]}`
yields at key `a` one modified leaf, old `1`, new `[1]`. -/
theorem compareJSON_kind_mismatch_atomic :
    (∀ o n p, getValueType o ≠ getValueType n →
      compareJSON o n p = [.mk (rootPath p) .modified (some o) (some n) none]) ∧
    compareJSON (.obj [("a", .num 1)]) (.obj [("a", .arr [.num 1])]) "" =
      [.mk "/" .modified (some (.obj [("a", .num 1)]))
        (some (.obj [("a", .arr [.num 1])]))
        (some [.mk "a" .modified (some (.num 1)) (some (.arr [.num 1])) none])] := by
  constructor
  · intro o n p h
    by_cases h1 : (isPrimitive o && isPrimitive n) = true
    · have hde := deepEqual_false_of_kind_ne o n h
      rw [cmp_prim o n p h1, hde]
      simp
    · have h2 : (getValueType o != getValueType n) = true := by
        simpa [bne_iff_ne] using h
      exact cmp_mismatch o n p h1 h2
  · simp [compareJSON, compareObjectKeys, isPrimitive, deepEqual, rootPath,
      getValueType, allKeysOf, containerTy, List.lookup, DiffNode.ty, firstDedup]

/-- Witness for claim C6's mismatch hypothesis: a number against a
string is a kind mismatch and produces the single modified leaf. -/
theorem compareJSON_kind_mismatch_atomic_witness :
    getValueType (.num 1) ≠ getValueType (.str "x") ∧
    compareJSON (.num 1) (.str "x") "k" =
      [.mk (rootPath "k") .modified (some (.num 1)) (some (.str "x")) none] :=
  ⟨by decide, compareJSON_kind_mismatch_atomic.1 (.num 1) (.str "x") "k" (by decide)⟩

/-- A successful lookup returns an entry of the list. -/
theorem lookup_mem {l : List (String × Value)} {k : String} {v : Value}
    (h : l.lookup k = some v) : (k, v) ∈ l := by
  induction l with
  | nil => simp [List.lookup] at h
  | cons hd tl ih =>
    rw [List.lookup] at h
    by_cases hk : k == hd.1
    · simp [hk] at h
      obtain ⟨k1, v1⟩ := hd
      simp at hk h
      subst hk
      subst h
      exact List.mem_cons_self _ _
    · simp [hk] at h
      exact List.mem_cons_of_mem _ (ih h)

/-- Any primitive value is deeply equal to itself. -/
theorem deepEqual_refl_prim (v : Value) (h : isPrimitive v = true) :
    deepEqual v v = true := by
  cases v <;> simp_all [isPrimitive, deepEqual]

/-- The deep predicate holds in particular at each top-level node. -/
theorem nodeAll_self (p : DiffNode → Bool) (nd : DiffNode)
    (h : nodeAll p nd = true) : p nd = true := by
  obtain ⟨pa, t, o, n, cs⟩ := nd
  cases cs <;> simp_all

/-- The deep predicate holds at every top-level node of the forest. -/
theorem forestAll_mem (p : DiffNode → Bool) :
    ∀ l, forestAll p l = true → ∀ nd ∈ l, p nd = true := by
  intro l
  induction l with
  | nil => intro h nd hnd; cases hnd
  | cons x xs ih =>
    intro h nd hnd
    rw [forestAll_cons, Bool.and_eq_true] at h
    rcases List.mem_cons.mp hnd with rfl | hm
    · exact nodeAll_self _ _ h.1
    · exact ih h.2 nd hm

/-- A forest all of whose nodes are unchanged is classified unchanged
as a container. -/
theorem containerTy_unchanged_of_forestAll (l : List DiffNode)
    (h : forestAll (fun nd => nd.ty == .unchanged) l = true) :
    containerTy l = .unchanged := by
  unfold containerTy
  rw [if_neg]
  intro hany
  rw [List.any_eq_true] at hany
  obtain ⟨c, hc, hne⟩ := hany
  have hc2 := forestAll_mem _ l h c hc
  simp at hc2 hne
  exact hne hc2

/-- Reflexivity of the comparator: comparing any value against itself
yields, at every path, a tree in which every node is unchanged. -/
theorem cmp_refl_all : ∀ v p,
    forestAll (fun nd => nd.ty == .unchanged) (compareJSON v v p) = true := by
  have prim : ∀ v, isPrimitive v = true → ∀ p,
      forestAll (fun nd => nd.ty == .unchanged) (compareJSON v v p) = true := by
    intro v hv p
    rw [cmp_prim v v p (by simp [hv]), deepEqual_refl_prim v hv]
    simp
  intro v
  apply valueIndStep
    (fun v => ∀ p, forestAll (fun nd => nd.ty == .unchanged) (compareJSON v v p) = true)
    (fun l => ∀ p i, forestAll (fun nd => nd.ty == .unchanged) (compareArrayItems p i l l) = true)
    (fun e => ∀ k w, e.lookup k = some w → ∀ p,
      forestAll (fun nd => nd.ty == .unchanged) (compareJSON w w p) = true)
  · exact prim .null rfl
  · intro b; exact prim (.bool b) rfl
  · intro i; exact prim (.num i) rfl
  · intro s; exact prim (.str s) rfl
  · intro items ih p
    rw [cmp_arr]
    have hch := ih p 0
    rw [containerTy_unchanged_of_forestAll _ hch]
    simp [hch]
  · intro entries ih p
    rw [cmp_obj]
    have hch : forestAll (fun nd => nd.ty == .unchanged)
        (compareObjectKeys p entries entries (allKeysOf entries entries)) = true := by
      generalize allKeysOf entries entries = ks
      induction ks with
      | nil => simp
      | cons k ks ihks =>
        rw [cok_cons]
        cases hlk : entries.lookup k with
        | none => simpa using ihks
        | some w =>
          rw [forestAll_append, Bool.and_eq_true]
          exact ⟨ih k w hlk _, ihks⟩
    rw [containerTy_unchanged_of_forestAll _ hch]
    simp [hch]
  · intro p i
    simp
  · intro x xs ihx ihxs p i
    rw [cai_both, forestAll_append, Bool.and_eq_true]
    exact ⟨ihx _, ihxs p (i + 1)⟩
  · intro k w hk
    simp [List.lookup] at hk
  · intro k v rest ihv ihrest k2 w hk2 p
    rw [List.lookup] at hk2
    by_cases hkk : k2 == k
    · simp [hkk] at hk2
      subst hk2
      exact ihv p
    · rw [Bool.not_eq_true] at hkk
      simp only [hkk] at hk2
      exact ihrest k2 w hk2 p

/-- Claim C4: reflexivity: for every value `v`, `compareJSON v v ""`
yields a tree in which every node, recursively, is unchanged. -/
theorem compareJSON_refl_unchanged (v : Value) :
    forestAll (fun nd => nd.ty == .unchanged) (compareJSON v v "") = true :=
  cmp_refl_all v ""
theorem cai_eq_spec : ∀ (a b : List Value) (p : String) (i : Nat),
    compareArrayItems p i a b =
      (List.range (max a.length b.length)).flatMap fun j =>
        match a[j]?, b[j]? with
        | some x, some y => compareJSON x y (p ++ "[" ++ toString (i + j) ++ "]")
        | some x, none =>
          [.mk (p ++ "[" ++ toString (i + j) ++ "]") .removed (some x) none none]
        | none, some y =>
          [.mk (p ++ "[" ++ toString (i + j) ++ "]") .added none (some y) none]
        | none, none => [] := by
  intro a
  induction a with
  | nil =>
    intro b
    induction b with
    | nil => intro p i; simp
    | cons y ys ihb =>
      intro p i
      rw [cai_add]
      have hmax : max ([] : List Value).length (y :: ys).length =
          max ([] : List Value).length ys.length + 1 := by simp
      rw [hmax, List.range_succ_eq_map, List.flatMap_cons, List.flatMap_map]
      simp only [List.getElem?_nil, List.getElem?_cons_zero, List.getElem?_cons_succ,
        List.singleton_append]
      rw [ihb p (i + 1)]
      congr 1
      exact congrArg _ (funext fun j => by
        first
        | simp only [List.getElem?_nil]
        | skip
        rw [show i + 1 + j = i + j.succ by omega])
  | cons x xs iha =>
    intro b
    cases b with
    | nil =>
      intro p i
      rw [cai_rem]
      have hmax : max (x :: xs).length ([] : List Value).length =
          max xs.length ([] : List Value).length + 1 := by simp
      rw [hmax, List.range_succ_eq_map, List.flatMap_cons, List.flatMap_map]
      simp only [List.getElem?_nil, List.getElem?_cons_zero, List.getElem?_cons_succ,
        List.singleton_append]
      rw [iha [] p (i + 1)]
      congr 1
      exact congrArg _ (funext fun j => by
        first
        | simp only [List.getElem?_nil]
        | skip
        rw [show i + 1 + j = i + j.succ by omega])
    | cons y ys =>
      intro p i
      rw [cai_both]
      have hmax : max (x :: xs).length (y :: ys).length = max xs.length ys.length + 1 := by
        simp [Nat.succ_max_succ]
      rw [hmax, List.range_succ_eq_map, List.flatMap_cons, List.flatMap_map]
      simp only [List.getElem?_cons_zero, List.getElem?_cons_succ]
      rw [iha ys p (i + 1)]
      congr 1
      exact congrArg _ (funext fun j => by
        first
        | simp only [List.getElem?_nil]
        | skip
        rw [show i + 1 + j = i + j.succ by omega])
/-- The array walk of the engine coincides with the claim's per-index
description. -/
theorem cai_zero_eq_spec (a b : List Value) (p : String) :
    compareArrayItems p 0 a b = arrChildrenSpec a b p := by
  rw [cai_eq_spec]
  unfold arrChildrenSpec
  exact congrArg _ (funext fun j => by rw [Nat.zero_add])

/-- Claim C7: array comparison is strictly positional by index over
[0, max(len old, len new)): one-sided indices become removed/added
leaves at `<path>[i]`, shared indices are compared recursively; in
particular `[1,2,3]` vs `[0,1,2]` gives three modified leaves at
`[0]`, `[1]`, `[2]`, not a shift detection. -/
theorem compareJSON_array_positional :
    (∀ a b p, compareJSON (.arr a) (.arr b) p =
      [.mk (rootPath p) (containerTy (arrChildrenSpec a b p))
        (some (.arr a)) (some (.arr b)) (some (arrChildrenSpec a b p))]) ∧
    compareJSON (.arr [.num 1, .num 2, .num 3]) (.arr [.num 0, .num 1, .num 2]) "" =
      [.mk "/" .modified (some (.arr [.num 1, .num 2, .num 3]))
        (some (.arr [.num 0, .num 1, .num 2]))
        (some [.mk "[0]" .modified (some (.num 1)) (some (.num 0)) none,
               .mk "[1]" .modified (some (.num 2)) (some (.num 1)) none,
               .mk "[2]" .modified (some (.num 3)) (some (.num 2)) none])] := by
  constructor
  · intro a b p
    rw [cmp_arr, cai_zero_eq_spec]
  · rw [cmp_arr]
    simp [compareArrayItems, compareJSON, isPrimitive, deepEqual, rootPath,
      containerTy, DiffNode.ty]
    decide
/-- Membership in the deduplicated key list is membership in the
original list. -/
theorem mem_firstDedup : ∀ (l : List String) (x : String), x ∈ firstDedup l ↔ x ∈ l := by
  intro l
  induction l using firstDedup.induct with
  | case1 => intro x; rw [firstDedup]
  | case2 k ks ih =>
    intro x
    rw [firstDedup]
    constructor
    · intro hx
      rcases List.mem_cons.mp hx with rfl | hm
      · exact List.mem_cons_self _ _
      · have := (ih x).mp hm
        exact List.mem_cons_of_mem _ (List.mem_filter.mp this).1
    · intro hx
      rcases List.mem_cons.mp hx with rfl | hm
      · exact List.mem_cons_self _ _
      · by_cases hxk : x = k
        · subst hxk; exact List.mem_cons_self _ _
        · refine List.mem_cons_of_mem _ ((ih x).mpr ?_)
          exact List.mem_filter.mpr ⟨hm, by simpa using hxk⟩

/-- The deduplicated key list has no duplicates. -/
theorem nodup_firstDedup : ∀ l : List String, (firstDedup l).Nodup := by
  intro l
  induction l using firstDedup.induct with
  | case1 => rw [firstDedup]; exact List.nodup_nil
  | case2 k ks ih =>
    rw [firstDedup]
    refine List.nodup_cons.mpr ⟨?_, ih⟩
    intro hk
    have := (mem_firstDedup _ _).mp hk
    have := (List.mem_filter.mp this).2
    simp at this

/-- The two key unions enumerate the same key set, each without
duplicates, hence are permutations of each other. -/
theorem allKeysOf_perm (a b : List (String × Value)) :
    (allKeysOf a b).Perm (allKeysOf b a) := by
  apply List.perm_of_nodup_nodup_toFinset_eq (nodup_firstDedup _) (nodup_firstDedup _)
  ext x
  simp [allKeysOf, mem_firstDedup, List.mem_toFinset]
  tauto
/-- The record flattening is a flat map of the per-node flattening. -/
theorem forestEntries_eq_flatMap : ∀ l : List DiffNode,
    forestEntries l = l.flatMap nodeEntries := by
  intro l
  induction l with
  | nil => simp
  | cons nd rest ih => simp [ih]

/-- The object-key walk is the flat map of its one-key segments. -/
theorem cok_eq_flatMap (p : String) (a b : List (String × Value)) :
    ∀ ks, compareObjectKeys p a b ks =
      ks.flatMap (fun k => compareObjectKeys p a b [k]) := by
  intro ks
  induction ks with
  | nil => simp
  | cons k ks ih =>
    rw [List.flatMap_cons, ← ih, cok_cons, cok_cons]
    simp

/-- Permutation preserves the Boolean `any`. -/
theorem perm_any {l1 l2 : List DiffNode} (h : l1.Perm l2) (f : DiffNode → Bool) :
    l1.any f = l2.any f := by
  cases h1 : l1.any f <;> cases h2 : l2.any f <;> try rfl
  · rw [List.any_eq_false] at h1
    rw [List.any_eq_true] at h2
    obtain ⟨x, hx, hfx⟩ := h2
    exact absurd hfx (by simp [h1 x (h.mem_iff.mpr hx)])
  · rw [List.any_eq_false] at h2
    rw [List.any_eq_true] at h1
    obtain ⟨x, hx, hfx⟩ := h1
    exact absurd hfx (by simp [h2 x (h.mem_iff.mp hx)])

/-- Deep equality is symmetric on primitives. -/
theorem deepEqual_comm_prim (o n : Value) (h1 : isPrimitive o = true)
    (h2 : isPrimitive n = true) : deepEqual n o = deepEqual o n := by
  cases o <;> cases n <;> simp_all [isPrimitive, deepEqual] <;> exact eq_comm
theorem swapCorr_nil : SwapCorr [] [] := by
  constructor <;> simp

theorem swapCorr_cons {nd nd2 : DiffNode} {l l2 : List DiffNode}
    (h1 : nodeSwapCorr nd nd2) (h2 : SwapCorr l l2) :
    SwapCorr (nd :: l) (nd2 :: l2) := by
  obtain ⟨ht, he⟩ := h1
  obtain ⟨ht2, he2⟩ := h2
  constructor
  · simp [ht, ht2]
  · simp only [forestEntries_cons, List.map_append]
    exact he.append he2

theorem swapCorr_append {l1 l2 l3 l4 : List DiffNode}
    (h1 : SwapCorr l1 l3) (h2 : SwapCorr l2 l4) :
    SwapCorr (l1 ++ l2) (l3 ++ l4) := by
  obtain ⟨ht, he⟩ := h1
  obtain ⟨ht2, he2⟩ := h2
  constructor
  · simp [ht, ht2]
  · simp only [forestEntries_append, List.map_append]
    exact he.append he2

/-- Swapping fixes the non-unchanged test. -/
theorem swapType_ne_unchanged (t : DiffType) :
    ((swapType t) != .unchanged) = (t != .unchanged) := by
  cases t <;> rfl

/-- Boolean `any` over a mapped list. -/
theorem any_map_general {α β : Type} (f : α → β) (p : β → Bool) :
    ∀ l : List α, (l.map f).any p = l.any (fun x => p (f x)) := by
  intro l
  induction l with
  | nil => rfl
  | cons x xs ih => simp [ih]

/-- A forest whose top-level classifications are the pointwise swap of
another's classifies identically as a container. -/
theorem containerTy_swap {ch ch2 : List DiffNode}
    (h : ch2.map DiffNode.ty = ch.map (fun nd => swapType nd.ty)) :
    containerTy ch2 = containerTy ch := by
  unfold containerTy
  have heq : ch2.any (fun c => c.ty != .unchanged) = ch.any (fun c => c.ty != .unchanged) := by
    have s1 := any_map_general DiffNode.ty (fun t => t != DiffType.unchanged) ch2
    have s2 := any_map_general (fun nd => swapType nd.ty) (fun t => t != DiffType.unchanged) ch
    rw [← s1, h, s2]
    exact congrArg _ (funext fun nd => swapType_ne_unchanged nd.ty)
  rw [heq]

/-- Container classifications are fixed points of the swap. -/
theorem swapType_containerTy (ch : List DiffNode) :
    swapType (containerTy ch) = containerTy ch := by
  unfold containerTy
  by_cases h : ch.any (fun c => c.ty != .unchanged) = true <;> simp [h, swapType]
/-- A leaf corresponds to the leaf with swapped classification and
exchanged values at the same path. -/
theorem nodeSwapCorr_leaf (pa : String) (t : DiffType) (o n : Option Value) :
    nodeSwapCorr (.mk pa t o n none) (.mk pa (swapType t) n o none) := by
  constructor
  · simp
  · simp [swapEntry]

/-- Permutation preserves container classification. -/
theorem containerTy_perm {l1 l2 : List DiffNode} (h : l1.Perm l2) :
    containerTy l1 = containerTy l2 := by
  unfold containerTy
  rw [perm_any h]

/-- Permutation of a forest permutes its flattened records. -/
theorem forestEntries_perm {l1 l2 : List DiffNode} (h : l1.Perm l2) :
    (forestEntries l1).Perm (forestEntries l2) := by
  rw [forestEntries_eq_flatMap, forestEntries_eq_flatMap]
  exact List.Perm.flatMap_right _ h

/-- A container node corresponds to the container over corresponding
children with values exchanged, at the same path. -/
theorem nodeSwapCorr_container (pa : String) (o n : Option Value)
    (ch ch2 : List DiffNode) (h : SwapCorr ch ch2) :
    nodeSwapCorr (.mk pa (containerTy ch) o n (some ch))
      (.mk pa (containerTy ch2) n o (some ch2)) := by
  obtain ⟨ht, he⟩ := h
  have hct : containerTy ch2 = swapType (containerTy ch) := by
    rw [containerTy_swap ht, swapType_containerTy]
  constructor
  · simpa using hct
  · simp only [nodeEntries_mk_some, List.map_cons]
    rw [show swapEntry ⟨pa, containerTy ch, o, n⟩ =
      ⟨pa, swapType (containerTy ch), n, o⟩ from rfl, ← hct]
    exact List.Perm.cons _ he

/-- Exchanging the two compared documents swaps every classification
and exchanges old/new values, up to reordering of object children. -/
theorem cmpSwapCorr : ∀ o n p, SwapCorr (compareJSON o n p) (compareJSON n o p) := by
  apply compareJSON.induct
    (fun o n p => SwapCorr (compareJSON o n p) (compareJSON n o p))
    (fun p a b ks => SwapCorr (compareObjectKeys p a b ks) (compareObjectKeys p b a ks))
    (fun p i xs ys => SwapCorr (compareArrayItems p i xs ys) (compareArrayItems p i ys xs))
  · intro o n p h1 h2
    rw [Bool.and_eq_true] at h1
    have h1s : (isPrimitive n && isPrimitive o) = true := by
      rw [Bool.and_eq_true]
      exact ⟨h1.2, h1.1⟩
    have hde : deepEqual n o = deepEqual o n := deepEqual_comm_prim o n h1.1 h1.2
    rw [cmp_prim o n p (by rw [Bool.and_eq_true]; exact h1), if_pos h2]
    rw [cmp_prim n o p h1s, hde, if_pos h2]
    exact swapCorr_cons (nodeSwapCorr_leaf (rootPath p) .modified (some o) (some n)) swapCorr_nil
  · intro o n p h1 h2
    rw [Bool.and_eq_true] at h1
    have h1s : (isPrimitive n && isPrimitive o) = true := by
      rw [Bool.and_eq_true]
      exact ⟨h1.2, h1.1⟩
    have hde : deepEqual n o = deepEqual o n := deepEqual_comm_prim o n h1.1 h1.2
    rw [cmp_prim o n p (by rw [Bool.and_eq_true]; exact h1), if_neg h2]
    rw [cmp_prim n o p h1s, hde, if_neg h2]
    exact swapCorr_cons (nodeSwapCorr_leaf (rootPath p) .unchanged (some o) (some n)) swapCorr_nil
  · intro o n p h1 h2
    have h1s : ¬(isPrimitive n && isPrimitive o) = true := by
      rw [Bool.and_comm] at h1
      exact h1
    have h2s : (getValueType n != getValueType o) = true := by
      rw [bne_iff_ne] at h2 ⊢
      exact Ne.symm h2
    rw [cmp_mismatch o n p h1 h2, cmp_mismatch n o p h1s h2s]
    exact swapCorr_cons (nodeSwapCorr_leaf (rootPath p) .modified (some o) (some n)) swapCorr_nil
  · intro p a b h1 h2 ih
    rw [cmp_arr, cmp_arr]
    exact swapCorr_cons
      (nodeSwapCorr_container (rootPath p) (some (.arr a)) (some (.arr b)) _ _ ih)
      swapCorr_nil
  · intro p a b h1 h2 ih
    rw [cmp_obj, cmp_obj]
    have hkeys : (allKeysOf b a).Perm (allKeysOf a b) := allKeysOf_perm b a
    have hflat : (compareObjectKeys p b a (allKeysOf b a)).Perm
        (compareObjectKeys p b a (allKeysOf a b)) := by
      rw [cok_eq_flatMap p b a (allKeysOf b a), cok_eq_flatMap p b a (allKeysOf a b)]
      exact List.Perm.flatMap_right _ hkeys
    obtain ⟨iht, ihe⟩ := ih
    have hct : containerTy (compareObjectKeys p b a (allKeysOf b a)) =
        swapType (containerTy (compareObjectKeys p a b (allKeysOf a b))) := by
      rw [containerTy_perm hflat, containerTy_swap iht, swapType_containerTy]
    refine swapCorr_cons ?_ swapCorr_nil
    constructor
    · simpa using hct
    · simp only [nodeEntries_mk_some, List.map_cons]
      rw [show swapEntry ⟨rootPath p, containerTy (compareObjectKeys p a b (allKeysOf a b)),
        some (Value.obj a), some (Value.obj b)⟩ =
        ⟨rootPath p, swapType (containerTy (compareObjectKeys p a b (allKeysOf a b))),
          some (Value.obj b), some (Value.obj a)⟩ from rfl, ← hct]
      exact List.Perm.cons _ ((forestEntries_perm hflat).trans ihe)
  · intro o n p h1 h2 harr hobj
    exfalso
    rcases sameKind_of o n h1 h2 with ⟨a, b, rfl, rfl⟩ | ⟨a, b, rfl, rfl⟩
    · exact harr a b rfl rfl
    · exact hobj a b rfl rfl
  · intro p a b
    rw [cok_nil, cok_nil]
    exact swapCorr_nil
  · intro p a b k ks v ha hb ih
    rw [cok_cons, ha, hb, cok_cons, ha, hb]
    exact swapCorr_cons (nodeSwapCorr_leaf _ .added none (some v)) ih
  · intro p a b k ks v ha hb ih
    rw [cok_cons, ha, hb, cok_cons, ha, hb]
    exact swapCorr_cons (nodeSwapCorr_leaf _ .removed (some v) none) ih
  · intro p a b k ks keyPath ov nv ha hb ih1 ih2
    rw [cok_cons, ha, hb, cok_cons, ha, hb]
    exact swapCorr_append ih1 ih2
  · intro p a b k ks ha hb ih
    rw [cok_cons, ha, hb, cok_cons, ha, hb]
    simpa using ih
  · intro p i
    rw [cai_nil]
    exact swapCorr_nil
  · intro p i y ys ih
    rw [cai_add, cai_rem]
    exact swapCorr_cons (nodeSwapCorr_leaf _ .added none (some y)) ih
  · intro p i x xs ih
    rw [cai_rem, cai_add]
    exact swapCorr_cons (nodeSwapCorr_leaf _ .removed (some x) none) ih
  · intro p i x xs y ys ih1 ih2
    rw [cai_both, cai_both]
    exact swapCorr_append ih1 ih2
/-- Claim C5: symmetry of shape: comparing in the two orders gives
trees with identical path multisets, in which added and removed swap
roles at the same path and modified/unchanged nodes keep their
classification with old and new values exchanged (children order at
object nodes is not part of the correspondence). -/
theorem compareJSON_symmetry (a b : Value) :
    ((forestEntries (compareJSON b a "")).map NodeEntry.path).Perm
      ((forestEntries (compareJSON a b "")).map NodeEntry.path) ∧
    (forestEntries (compareJSON b a "")).Perm
      ((forestEntries (compareJSON a b "")).map swapEntry) := by
  have h := cmpSwapCorr a b ""
  refine ⟨?_, h.2⟩
  have hp := h.2.map NodeEntry.path
  have hsame : (List.map swapEntry (forestEntries (compareJSON a b ""))).map NodeEntry.path =
      (forestEntries (compareJSON a b "")).map NodeEntry.path := by
    have hfun : (NodeEntry.path ∘ swapEntry) = NodeEntry.path := by
      funext e
      obtain ⟨pa, t, o, n⟩ := e
      rfl
    rw [List.map_map, hfun]
  rwa [hsame] at hp
